import Mathlib

/-!
# Verification of the gatesmith RBAC permission engine

Shallow embedding of the RBAC implementation (rbac.ts, final variant: the
class with `canExplain`, helper constructors and runtime updates) together
with theorems settling the specification claims.

JavaScript strings are modelled as `List Char` (`Str`): every string
operation the code uses (`split`, `includes`, `===`, template
concatenation) is defined below with JavaScript semantics.  JavaScript
`undefined`-able fields (`ownership?`, `comparisonResult?`) are modelled
as `Option Str`; JavaScript truthiness of a `string | undefined` value
(`if (ownership)`) is `strTruthy`: `undefined` and the empty string are
falsy, every other string is truthy.
-/

set_option maxRecDepth 10000

namespace Gatesmith

/-- JavaScript strings, modelled as lists of characters. -/
abbrev Str := List Char

/-- Shorthand turning a Lean string literal into the `Str` model. -/
def str (s : String) : Str := s.toList

/-- `WILDCARD_PERMISSION = "*"`. -/
def WILDCARD_PERMISSION : Str := str "*"

/-- JavaScript `s.split(sep)` for a one-character separator: splits the
string at every occurrence of `sep`, keeping empty segments, and returns
at least one (possibly empty) segment. -/
def jsSplit (sep : Char) : Str → List Str
  | [] => [[]]
  | c :: cs =>
    match jsSplit sep cs with
    | [] => [[]]
    | h :: t => if c = sep then [] :: h :: t else (c :: h) :: t

/-- JavaScript `s.includes(c)` for a one-character needle. -/
def jsIncludes (s : Str) (c : Char) : Bool := decide (c ∈ s)

/-- JavaScript truthiness of a `string | undefined` value:
`undefined` and `""` are falsy, everything else truthy. -/
def strTruthy : Option Str → Bool
  | none => false
  | some s => !s.isEmpty

/-- Result of `parsePermission`: the fields of the object
`{ action, ownership?, comparisonResult? }` returned by the code. -/
structure ParsedPermission where
  action : Str
  ownership : Option Str := none
  comparisonResult : Option Str := none
deriving DecidableEq

/-- First-match association-list lookup, the model of JavaScript object
indexing `obj[key]` (object keys are unique, so first match is the
match). -/
def lookup (k : Str) : List (Str × α) → Option α
  | [] => none
  | (k', v) :: rest => if k' = k then some v else lookup k rest

/-- `parsePermission` (rbac.ts): splits a permission token into action,
optional ownership qualifier and optional comparison result.  JavaScript
`const [a, b] = s.split(x)` keeps only the first two segments, so text
after a second separator is silently dropped; the embedding mirrors this
with `headD`/`get? 1` on the full segment list. -/
def parsePermission (permission : Str) : ParsedPermission :=
  if jsIncludes permission '|' then
    -- Format: "action:ownership|result"
    let parts := jsSplit '|' permission
    let actionPart := parts.headD []
    let resultPart := parts.get? 1
    if jsIncludes actionPart ':' then
      let sub := jsSplit ':' actionPart
      { action := sub.headD [], ownership := sub.get? 1,
        comparisonResult := resultPart }
    else
      { action := actionPart, comparisonResult := resultPart }
  else if jsIncludes permission ':' then
    -- Format: "action:ownership"
    let sub := jsSplit ':' permission
    { action := sub.headD [], ownership := sub.get? 1 }
  else
    -- Simple permission
    { action := permission }

/-- `own(action, userId, resourceOwnerId)`:
returns `` `${action}:own|${userId === resourceOwnerId}` ``. -/
def own (action userId resourceOwnerId : Str) : Str :=
  action ++ str ":own|" ++
    (if userId = resourceOwnerId then str "true" else str "false")

/-- `group(action, userId, groupMemberIds)`:
returns `` `${action}:group|${groupMemberIds.includes(userId)}` ``. -/
def group (action userId : Str) (groupMemberIds : List Str) : Str :=
  action ++ str ":group|" ++
    (if userId ∈ groupMemberIds then str "true" else str "false")

/-- `RoleConfig`: display name plus per-resource permission token lists
(the optional free-text `description` is opaque to the engine and
omitted). -/
structure RoleConfig where
  name : Option Str := none
  permissions : List (Str × List Str)
deriving DecidableEq

/-- `RolesConfig`: mapping from role name to configuration. -/
abbrev RolesConfig := List (Str × RoleConfig)

/-- `getRolePermissions(roleName, resource)`: `[]` for an absent role;
`[]` when `resource` is falsy (the empty string) because of the
`if (!resource || Array.isArray(roleDefinition))` guard (with the final
`RolesConfig` type the definition is never an array, so that guard
returns `[]`); otherwise `roleDefinition.permissions[resource] || []`. -/
def getRolePermissions (store : RolesConfig) (roleName resource : Str) :
    List Str :=
  match lookup roleName store with
  | none => []
  | some cfg =>
    if resource.isEmpty then []
    else (lookup resource cfg.permissions).getD []

/-- The predicate of `permissions.some(...)` inside
`checkSinglePermission`, extracted as a named definition (`parsed` is the
parse of the requested permission, `p` the candidate granted token). -/
def checkCandidate (parsed : ParsedPermission) (p : Str) : Bool :=
  -- Wildcard permission matches any action
  if p = WILDCARD_PERMISSION then true
  else
    let parsedP := parsePermission p
    -- If actions don't match, not a match
    if parsedP.action ≠ parsed.action then false
    -- General request vs ownership-only grant: not a match
    else if !strTruthy parsed.ownership && strTruthy parsedP.ownership then
      false
    -- Both have ownership types and they don't match: not a match
    else if strTruthy parsed.ownership && strTruthy parsedP.ownership
        && parsed.ownership ≠ parsedP.ownership then false
    else true

/-- `checkSinglePermission(roleName, permission, resource)` (rbac.ts):
wildcard check, then generality subsumption, then candidate matching,
then comparison-result evaluation. -/
def checkSinglePermission (store : RolesConfig)
    (roleName permission resource : Str) : Bool :=
  let parsed := parsePermission permission
  let permissions := getRolePermissions store roleName resource
  -- Check for wildcard permission first
  if decide (WILDCARD_PERMISSION ∈ permissions) then
    -- simple wildcard without ownership check
    if !strTruthy parsed.ownership then true
    -- ownership/group/validation checks with pipe
    else if parsed.comparisonResult.isSome then
      decide (parsed.comparisonResult = some (str "true"))
    -- ownership specified without a pipe
    else true
  -- general permission satisfies any ownership-specific request
  else if strTruthy parsed.ownership
      && decide (parsed.action ∈ permissions) then true
  else
    let hasPermission := permissions.any (checkCandidate parsed)
    if !hasPermission then false
    else if parsed.comparisonResult.isSome then
      decide (parsed.comparisonResult = some (str "true"))
    else true

/-- `can(roleName, permission[], resource)` for the array form:
`permissions.some(perm => checkSinglePermission(...))`. -/
def canList (store : RolesConfig) (roleName : Str) (permissions : List Str)
    (resource : Str) : Bool :=
  permissions.any fun perm => checkSinglePermission store roleName perm resource

/-- `can(roleName, permission, resource)` for a single token: the code
wraps it into a one-element array and defers to the array form. -/
def can (store : RolesConfig) (roleName permission resource : Str) : Bool :=
  canList store roleName [permission] resource

/-- `getRoles()`: `Object.keys(this.rolesConfig)`, in insertion order. -/
def getRoles (store : RolesConfig) : List Str := store.map Prod.fst

/-- `getName(roleName)`: the role's display name when set and non-empty
(`roleConfig.name || roleName` — an empty display name is falsy), else
the role name itself; the role name itself for an absent role. -/
def getName (store : RolesConfig) (roleName : Str) : Str :=
  match lookup roleName store with
  | none => roleName
  | some cfg =>
    match cfg.name with
    | some n => if n.isEmpty then roleName else n
    | none => roleName

/-- `hasWildcardPermission(roleName, resource)`:
`getRolePermissions(...).includes(WILDCARD_PERMISSION)`. -/
def hasWildcardPermission (store : RolesConfig) (roleName resource : Str) :
    Bool :=
  decide (WILDCARD_PERMISSION ∈ getRolePermissions store roleName resource)

/-- Reason codes of the explanation objects, exactly those occurring in
`explainSinglePermission`. -/
inductive ExplainReason where
  | ROLE_NOT_FOUND
  | RESOURCE_NOT_ALLOWED
  | WILDCARD_PERMISSION
  | WILDCARD_WITH_OWNERSHIP
  | OWNERSHIP_CHECK_FAILED
  | WILDCARD_WITH_OWNERSHIP_DEFAULT
  | GENERIC_PERMISSION_WITH_OWNERSHIP
  | REQUIRES_OWNERSHIP
  | ACTION_NOT_ALLOWED
  | PERMISSION_WITH_OWNERSHIP
  | PERMISSION_WITH_OWNERSHIP_DEFAULT
  | PERMISSION_GRANTED
deriving DecidableEq

/-- `PermissionExplanation`: the structured result of `canExplain`.  An
absent `ownership` field is modelled as `none` (the code leaves the field
out on some branches and sets it to a possibly-`undefined` value on
others; both are JavaScript `undefined` to a reader of the object).  The
human-readable `details` string is purely presentational interpolated
text and is omitted from the model. -/
structure PermissionExplanation where
  granted : Bool
  reason : ExplainReason
  role : Str
  resource : Str
  action : Str
  ownership : Option Str := none
deriving DecidableEq

/-- The predicate of `permissions.filter(...)` that collects matching
permissions inside `explainSinglePermission`, extracted as a named
definition.  Note the second clause compares the (possibly `undefined`)
ownership parts with JavaScript strict equality, modelled as equality of
`Option Str`. -/
def explainCandidate (parsed : ParsedPermission) (p : Str) : Bool :=
  let parsedP := parsePermission p
  -- Simple action match (without ownership)
  if parsedP.action = parsed.action && !strTruthy parsedP.ownership
      && !strTruthy parsed.ownership then true
  -- Exact match with ownership
  else if parsedP.action = parsed.action
      && parsedP.ownership = parsed.ownership then true
  else false

/-- The predicate of the `permissions.some(...)` that checks for
ownership-qualified grants of the requested action inside
`explainSinglePermission` (the `REQUIRES_OWNERSHIP` test). -/
def ownershipCandidate (parsed : ParsedPermission) (p : Str) : Bool :=
  let parsedP := parsePermission p
  parsedP.action = parsed.action && strTruthy parsedP.ownership

/-- `explainSinglePermission(roleName, permission, resource)` (rbac.ts):
re-runs the decision logic, producing a structured explanation. -/
def explainSinglePermission (store : RolesConfig)
    (roleName permission resource : Str) : PermissionExplanation :=
  -- Check if the role exists
  if (lookup roleName store).isNone then
    { granted := false, reason := .ROLE_NOT_FOUND, role := roleName,
      resource := resource, action := permission }
  else
    let parsed := parsePermission permission
    let permissions := getRolePermissions store roleName resource
    -- Check if the resource exists for this role
    if permissions.isEmpty then
      { granted := false, reason := .RESOURCE_NOT_ALLOWED, role := roleName,
        resource := resource, action := parsed.action,
        ownership := parsed.ownership }
    -- Check for wildcard permission
    else if decide (WILDCARD_PERMISSION ∈ permissions) then
      if !strTruthy parsed.ownership then
        { granted := true, reason := .WILDCARD_PERMISSION, role := roleName,
          resource := resource, action := parsed.action }
      else if parsed.comparisonResult.isSome then
        if parsed.comparisonResult = some (str "true") then
          { granted := true, reason := .WILDCARD_WITH_OWNERSHIP,
            role := roleName, resource := resource, action := parsed.action,
            ownership := parsed.ownership }
        else
          { granted := false, reason := .OWNERSHIP_CHECK_FAILED,
            role := roleName, resource := resource, action := parsed.action,
            ownership := parsed.ownership }
      else
        { granted := true, reason := .WILDCARD_WITH_OWNERSHIP_DEFAULT,
          role := roleName, resource := resource, action := parsed.action,
          ownership := parsed.ownership }
    -- Check if the role has general permission (without ownership)
    else if strTruthy parsed.ownership
        && decide (parsed.action ∈ permissions) then
      { granted := true, reason := .GENERIC_PERMISSION_WITH_OWNERSHIP,
        role := roleName, resource := resource, action := parsed.action,
        ownership := parsed.ownership }
    else
      -- Check if the role has the specific permission
      let matchingPermissions := permissions.filter (explainCandidate parsed)
      if matchingPermissions.isEmpty then
        let hasOwnershipPermissions :=
          permissions.any (ownershipCandidate parsed)
        if !strTruthy parsed.ownership && hasOwnershipPermissions then
          { granted := false, reason := .REQUIRES_OWNERSHIP, role := roleName,
            resource := resource, action := parsed.action,
            ownership := parsed.ownership }
        else
          { granted := false, reason := .ACTION_NOT_ALLOWED, role := roleName,
            resource := resource, action := parsed.action,
            ownership := parsed.ownership }
      -- Matching permission with pipe: check the comparison result
      else if strTruthy parsed.ownership && parsed.comparisonResult.isSome then
        if parsed.comparisonResult = some (str "true") then
          { granted := true, reason := .PERMISSION_WITH_OWNERSHIP,
            role := roleName, resource := resource, action := parsed.action,
            ownership := parsed.ownership }
        else
          { granted := false, reason := .OWNERSHIP_CHECK_FAILED,
            role := roleName, resource := resource, action := parsed.action,
            ownership := parsed.ownership }
      -- Ownership without pipe: always granted
      else if strTruthy parsed.ownership then
        { granted := true, reason := .PERMISSION_WITH_OWNERSHIP_DEFAULT,
          role := roleName, resource := resource, action := parsed.action,
          ownership := parsed.ownership }
      -- Simple permission granted
      else
        { granted := true, reason := .PERMISSION_GRANTED, role := roleName,
          resource := resource, action := parsed.action,
          ownership := parsed.ownership }

/-- `canExplain` for the array form: one explanation per token, in
order (`permission.map(...)`). -/
def canExplainList (store : RolesConfig) (roleName : Str)
    (permissions : List Str) (resource : Str) : List PermissionExplanation :=
  permissions.map fun perm =>
    explainSinglePermission store roleName perm resource

/-- `canExplain` for a single permission token. -/
def canExplain (store : RolesConfig) (roleName permission resource : Str) :
    PermissionExplanation :=
  explainSinglePermission store roleName permission resource

/-- JavaScript `[...new Set([...a, ...b])]`: concatenation with
duplicates removed, keeping the first occurrence of each element. -/
def jsSetUnion (a b : List Str) : List Str :=
  (a ++ b).foldl (fun acc t => if t ∈ acc then acc else acc ++ [t]) []

/-- One role entry as the `updateRoles` merge loop leaves it.  The loop
body runs *after* `this.rolesConfig = {...this.rolesConfig, ...newRoles}`,
so for every role of `newRoles` the store entry and the `newRoles` entry
are the same object (the spread copies the reference).  Consequently:
* the display-name preservation step reads
  `this.rolesConfig[roleName].name`, which is already the *new* entry's
  name, so the old name is never restored (the guard
  `!newRoles[roleName].name && this.rolesConfig[roleName].name` is
  always false);
* the per-resource loop iterates the *new* entry's resources only, and
  `existingPermissions` is the very same array as `newPermissions`, so
  each new list is replaced by `[...new Set([...l, ...l]])` — the list
  deduplicated against itself — and resources present only in the old
  configuration are never visited. -/
def mergeMutatedEntry (cfg : RoleConfig) : RoleConfig :=
  { cfg with
    permissions := cfg.permissions.map fun p => (p.1, jsSetUnion p.2 p.2) }

/-- `updateRoles(newRoles, merge)` (rbac.ts): with `merge = false` the
store is replaced wholesale by `newRoles`.  With `merge = true` the net
effect (see `mergeMutatedEntry` for the object-aliasing derivation) is:
every role of `newRoles` ends up with exactly its new configuration,
with each per-resource list deduplicated against itself, and roles
absent from `newRoles` keep their old configuration.  Key order is the
spread order: old keys first (values overridden), then new-only keys. -/
def updateRoles (store newRoles : RolesConfig) (merge : Bool) : RolesConfig :=
  if merge then
    (store.map fun p =>
      (p.1, match lookup p.1 newRoles with
            | some nv => mergeMutatedEntry nv
            | none => p.2)) ++
    ((newRoles.filter fun p => (lookup p.1 store).isNone).map fun p =>
      (p.1, mergeMutatedEntry p.2))
  else newRoles

/-- The token grammar as the specification's words describe it
(for comparison with `parsePermission`, claim C7): split on the FIRST
`|` with *everything to the right* becoming the result, then split the
left portion on the FIRST `:` with *everything to the right of that
first `:`* becoming the qualifier. -/
def parsePermissionSpecWords (s : Str) : ParsedPermission :=
  let actionPart := s.takeWhile (· ≠ '|')
  let resultPart :=
    if '|' ∈ s then some ((s.dropWhile (· ≠ '|')).tail) else none
  { action := actionPart.takeWhile (· ≠ ':')
    ownership :=
      if ':' ∈ actionPart then some ((actionPart.dropWhile (· ≠ ':')).tail)
      else none
    comparisonResult := resultPart }

/-! ### Method-call semantics over the mutable instance state

The only mutable state of an `RBAC` instance is its private
`rolesConfig` field.  A method call is modelled as a state transformer
`state → result × state`.  The bodies of `can`, `canExplain`,
`hasWildcardPermission`, `getRoles` and `getName` contain no assignment
to `this.rolesConfig` (they only read it through `getRolePermissions` /
`lookup`), so their post-state is the pre-state; `updateRoles` assigns
the merged configuration and returns `this` for chaining. -/

/-- Method call `this.can(roleName, permissions, resource)`. -/
def canS (s : RolesConfig) (roleName : Str) (permissions : List Str)
    (resource : Str) : Bool × RolesConfig :=
  (canList s roleName permissions resource, s)

/-- Method call `this.canExplain(roleName, permissions, resource)`. -/
def canExplainS (s : RolesConfig) (roleName : Str) (permissions : List Str)
    (resource : Str) : List PermissionExplanation × RolesConfig :=
  (canExplainList s roleName permissions resource, s)

/-- Method call `this.hasWildcardPermission(roleName, resource)`. -/
def hasWildcardPermissionS (s : RolesConfig) (roleName resource : Str) :
    Bool × RolesConfig :=
  (hasWildcardPermission s roleName resource, s)

/-- Method call `this.getRoles()`. -/
def getRolesS (s : RolesConfig) : List Str × RolesConfig :=
  (getRoles s, s)

/-- Method call `this.getName(roleName)`. -/
def getNameS (s : RolesConfig) (roleName : Str) : Str × RolesConfig :=
  (getName s roleName, s)

/-- Method call `this.updateRoles(newRoles, merge)`: mutates the store
and returns `this` (modelled as the post-state). -/
def updateRolesS (s newRoles : RolesConfig) (merge : Bool) :
    RolesConfig × RolesConfig :=
  (updateRoles s newRoles merge, updateRoles s newRoles merge)

/-! ### Well-formed tokens (claim C1)

`can` and `canExplain` agree on every token whose optional parts are
well-formed: a comparison result only together with a non-empty
qualifier, and no empty qualifier.  (Outside this fragment they can
disagree, see the counterexample for C1.) -/

/-- A requested token is well-formed when a comparison result only
occurs together with a truthy (present, non-empty) qualifier. -/
def wfRequest (t : Str) : Prop :=
  strTruthy (parsePermission t).ownership = true ∨
  (parsePermission t).comparisonResult = none

/-- A granted token is well-formed when its qualifier, if present, is
non-empty, and a comparison result only occurs together with a
qualifier. -/
def wfGrant (p : Str) : Prop :=
  (parsePermission p).ownership ≠ some [] ∧
  (strTruthy (parsePermission p).ownership = true ∨
    (parsePermission p).comparisonResult = none)

instance : DecidablePred wfRequest := fun t => by
  unfold wfRequest
  infer_instance

instance : DecidablePred wfGrant := fun p => by
  unfold wfGrant
  infer_instance

/-! ### Inheritance resolver (claim C8)

The inheritance feature (`inherits` lists, `getAllPermissions`) is
exercised by the repository's tests but its implementation is not among
the source files; the resolver below is modelled from the spec.
-/

/-- Modelled from the spec: a role configuration with the optional list
of parent role names (`inherits`) that the missing inheritance-aware
implementation consumes (§ Role Configuration). -/
structure IRoleConfig where
  name : Option Str := none
  permissions : List (Str × List Str)
  inherits : List Str := []

/-- Modelled from the spec: store for inheritance-aware configurations. -/
abbrev IRolesConfig := List (Str × IRoleConfig)

/-- Union a role's direct tokens into the accumulator, adding only
tokens not already present (set union, first occurrence kept). -/
def unionInto (acc toks : List Str) : List Str :=
  toks.foldl (fun a t => if t ∈ a then a else a ++ [t]) acc

/-- Modelled from the spec: one fuelled run of the seen-set-guarded
traversal of `resolveAllTokens` / `getAllPermissions` (§4.3): process a
queue of role names; skip names already in the seen list; otherwise mark
the name seen, union the role's direct tokens for `resource` into the
accumulator and enqueue its parent list; absent roles contribute
nothing.  Returns the accumulated token set and the visit order.  The
fuel only bounds the number of loop iterations; `resolveFuel_stable`
below shows any fuel of at least `phi` steps gives the same answer, i.e.
the unfuelled loop terminates. -/
def resolveStep (store : IRolesConfig) (resource : Str) :
    Nat → List Str → List Str → List Str → List Str × List Str
  | _, [], visited, acc => (acc, visited)
  | 0, _ :: _, visited, acc => (acc, visited)
  | fuel + 1, r :: queue, visited, acc =>
    if r ∈ visited then resolveStep store resource fuel queue visited acc
    else
      match lookup r store with
      | none => resolveStep store resource fuel queue (visited ++ [r]) acc
      | some cfg =>
        resolveStep store resource fuel (queue ++ cfg.inherits)
          (visited ++ [r])
          (unionInto acc ((lookup resource cfg.permissions).getD []))

/-- For every store entry not yet seen: one step for visiting it plus
one step per parent it enqueues. -/
def seenWeight (store : IRolesConfig) (visited : List Str) : Nat :=
  ((store.filter fun p => decide (p.1 ∉ visited)).map
    fun p => 1 + p.2.inherits.length).sum

/-- Termination potential of the traversal: queue length plus the weight
of the unvisited store entries.  Every iteration of `resolveStep`
strictly decreases this measure. -/
def phi (store : IRolesConfig) (queue visited : List Str) : Nat :=
  queue.length + seenWeight store visited

/-- Modelled from the spec: `getAllPermissions(role, resource)` — the
de-duplicated union of the tokens of every role reachable from `role`
through `inherits` edges, run with sufficient fuel. -/
def getAllPermissions (store : IRolesConfig) (roleName resource : Str) :
    List Str :=
  (resolveStep store resource (phi store [roleName] []) [roleName] [] []).1

/-- The order in which the traversal of `getAllPermissions` visits role
names. -/
def visitOrder (store : IRolesConfig) (roleName resource : Str) : List Str :=
  (resolveStep store resource (phi store [roleName] []) [roleName] [] []).2

/-! ## Basic facts about the JavaScript split model -/

/-- The prefix of `l` up to (excluding) the first occurrence of `sep`
(all of `l` if `sep` does not occur). -/
def takeUntil (sep : Char) : Str → Str
  | [] => []
  | c :: cs => if c = sep then [] else c :: takeUntil sep cs

/-- The suffix of `l` strictly after the first occurrence of `sep`
(`[]` if `sep` does not occur). -/
def dropThrough (sep : Char) : Str → Str
  | [] => []
  | c :: cs => if c = sep then cs else dropThrough sep cs

theorem jsSplit_ne_nil (sep : Char) (l : Str) : jsSplit sep l ≠ [] := by
  induction l with
  | nil => simp [jsSplit]
  | cons c cs ih =>
    unfold jsSplit
    cases h : jsSplit sep cs with
    | nil => exact absurd h ih
    | cons hd tl =>
      by_cases hc : c = sep <;> simp [hc]

theorem jsSplit_cons_eq {sep : Char} {cs : Str} {hd : Str} {tl : List Str}
    (h : jsSplit sep cs = hd :: tl) (c : Char) :
    jsSplit sep (c :: cs) =
      if c = sep then [] :: hd :: tl else (c :: hd) :: tl := by
  unfold jsSplit
  rw [h]

theorem jsSplit_head? (sep : Char) (l : Str) :
    (jsSplit sep l).head? = some (takeUntil sep l) := by
  induction l with
  | nil => simp [jsSplit, takeUntil]
  | cons c cs ih =>
    cases h : jsSplit sep cs with
    | nil => exact absurd h (jsSplit_ne_nil sep cs)
    | cons hd tl =>
      rw [h] at ih
      simp only [List.head?, Option.some_inj] at ih
      rw [jsSplit_cons_eq h c]
      by_cases hc : c = sep
      · simp [hc, takeUntil]
      · simp [hc, takeUntil, ih]

theorem jsSplit_headD (sep : Char) (l : Str) :
    (jsSplit sep l).headD [] = takeUntil sep l := by
  rw [List.headD_eq_head?, jsSplit_head?]
  rfl

theorem jsSplit_get?_one (sep : Char) (l : Str) :
    (jsSplit sep l).get? 1 =
      if sep ∈ l then some (takeUntil sep (dropThrough sep l)) else none := by
  induction l with
  | nil => simp [jsSplit]
  | cons c cs ih =>
    cases h : jsSplit sep cs with
    | nil => exact absurd h (jsSplit_ne_nil sep cs)
    | cons hd tl =>
      rw [jsSplit_cons_eq h c]
      by_cases hc : c = sep
      · have hhd : hd = takeUntil sep cs := by
          have := jsSplit_head? sep cs
          rw [h] at this
          simpa using this
        simp [hc, dropThrough, hhd]
      · have h1 : ((c :: hd) :: tl).get? 1 = (hd :: tl).get? 1 := rfl
        rw [if_neg hc, h1, ← h, ih]
        have hmem : sep ∈ c :: cs ↔ sep ∈ cs := by
          simp [List.mem_cons, Ne.symm hc]
        simp only [hmem, dropThrough, if_neg hc]

theorem jsSplit_not_mem (sep : Char) (l : Str) :
    ∀ part ∈ jsSplit sep l, sep ∉ part := by
  induction l with
  | nil =>
    intro part hp
    simp [jsSplit] at hp
    simp [hp]
  | cons c cs ih =>
    intro part hp
    cases h : jsSplit sep cs with
    | nil => exact absurd h (jsSplit_ne_nil sep cs)
    | cons hd tl =>
      rw [jsSplit_cons_eq h c] at hp
      by_cases hc : c = sep
      · rw [if_pos hc] at hp
        rcases List.mem_cons.mp hp with h1 | h2
        · simp [h1]
        · exact ih part (h ▸ h2)
      · rw [if_neg hc] at hp
        rcases List.mem_cons.mp hp with h1 | h2
        · subst h1
          intro hmem
          rcases List.mem_cons.mp hmem with h3 | h4
          · exact hc h3.symm
          · exact ih hd (h ▸ List.mem_cons_self hd tl) h4
        · exact ih part (h ▸ List.mem_cons_of_mem hd h2)

theorem jsSplit_of_not_mem {sep : Char} {l : Str} (h : sep ∉ l) :
    jsSplit sep l = [l] := by
  induction l with
  | nil => simp [jsSplit]
  | cons c cs ih =>
    have hc : c ≠ sep := fun hc => h (hc ▸ List.mem_cons_self c cs)
    have hcs : sep ∉ cs := fun hm => h (List.mem_cons_of_mem c hm)
    rw [jsSplit_cons_eq (ih hcs) c, if_neg hc]

theorem jsSplit_append_sep {sep : Char} {l₁ : Str} (l₂ : Str)
    (h : sep ∉ l₁) : jsSplit sep (l₁ ++ sep :: l₂) = l₁ :: jsSplit sep l₂ := by
  induction l₁ with
  | nil =>
    cases hs : jsSplit sep l₂ with
    | nil => exact absurd hs (jsSplit_ne_nil sep l₂)
    | cons hd tl =>
      rw [List.nil_append, jsSplit_cons_eq hs sep, if_pos rfl, ← hs]
  | cons c cs ih =>
    have hc : c ≠ sep := fun hc => h (hc ▸ List.mem_cons_self c cs)
    have hcs : sep ∉ cs := fun hm => h (List.mem_cons_of_mem c hm)
    have ihh := ih hcs
    cases hs : jsSplit sep (cs ++ sep :: l₂) with
    | nil => exact absurd hs (jsSplit_ne_nil sep _)
    | cons hd tl =>
      rw [List.cons_append, jsSplit_cons_eq hs c, if_neg hc]
      rw [hs] at ihh
      rw [List.cons.injEq] at ihh ⊢
      exact ⟨by rw [ihh.1], ihh.2⟩

theorem jsSplit_head_getD (sep : Char) (l : Str) :
    (jsSplit sep l).head?.getD [] = takeUntil sep l := by
  rw [jsSplit_head?]
  rfl

theorem jsSplit_getElem?_one (sep : Char) (l : Str) :
    (jsSplit sep l)[1]? =
      if sep ∈ l then some (takeUntil sep (dropThrough sep l)) else none := by
  rw [← List.get?_eq_getElem?]
  exact jsSplit_get?_one sep l

theorem not_mem_takeUntil (sep : Char) (l : Str) : sep ∉ takeUntil sep l := by
  induction l with
  | nil => simp [takeUntil]
  | cons c cs ih =>
    by_cases hc : c = sep
    · simp [takeUntil, hc]
    · simp [takeUntil, hc, List.mem_cons, ih]
      exact fun h => hc h.symm

theorem takeUntil_of_not_mem {sep : Char} {l : Str} (h : sep ∉ l) :
    takeUntil sep l = l := by
  induction l with
  | nil => rfl
  | cons c cs ih =>
    have hc : c ≠ sep := fun hc => h (hc ▸ List.mem_cons_self c cs)
    have hcs : sep ∉ cs := fun hm => h (List.mem_cons_of_mem c hm)
    simp [takeUntil, hc, ih hcs]

/-! ## The permission token codec -/

/-- How `parsePermission` decomposes an arbitrary token: the action is
the text before the first `:` of the text before the first `|`; the
qualifier exists iff that action/qualifier portion contains a `:` and is
then the segment between its first and second `:` (text after a second
`:` is dropped by the destructuring `const [action, ownership] = ...`);
the result exists iff the token contains a `|` and is then the segment
between the first and second `|` (text after a second `|` is likewise
dropped). -/
theorem parsePermission_eq (s : Str) :
    parsePermission s =
      { action := takeUntil ':' (takeUntil '|' s)
        ownership :=
          if ':' ∈ takeUntil '|' s then
            some (takeUntil ':' (dropThrough ':' (takeUntil '|' s)))
          else none
        comparisonResult :=
          if '|' ∈ s then some (takeUntil '|' (dropThrough '|' s))
          else none } := by
  by_cases hp : '|' ∈ s
  · by_cases hc : ':' ∈ takeUntil '|' s
    · simp [parsePermission, jsIncludes, hp, hc, jsSplit_head_getD,
        jsSplit_getElem?_one]
    · simp [parsePermission, jsIncludes, hp, hc, jsSplit_head_getD,
        jsSplit_getElem?_one, takeUntil_of_not_mem hc]
  · have hTake : takeUntil '|' s = s := takeUntil_of_not_mem hp
    by_cases hc : ':' ∈ s
    · simp [parsePermission, jsIncludes, hp, hc, jsSplit_head_getD,
        jsSplit_getElem?_one, hTake]
    · simp [parsePermission, jsIncludes, hp, hc, hTake,
        takeUntil_of_not_mem hc]

/-- A token that parses with neither qualifier nor result is its own
action: it contains no separator at all. -/
theorem parsePermission_plain {p : Str}
    (h1 : (parsePermission p).ownership = none)
    (h2 : (parsePermission p).comparisonResult = none) :
    parsePermission p = { action := p } := by
  have hchar := parsePermission_eq p
  have hpipe : '|' ∉ p := by
    intro hmem
    rw [hchar] at h2
    simp [hmem] at h2
  have hcolon : ':' ∉ p := by
    intro hmem
    rw [hchar] at h1
    rw [takeUntil_of_not_mem hpipe] at h1
    simp [hmem] at h1
  simp [parsePermission, jsIncludes, hpipe, hcolon]

/-! ## Claim theorems -/

/-- C9: for every role name and resource, calling `can` with an empty
permission array returns `false`, and calling `canExplain` with an empty
permission array returns an empty list of explanations. -/
theorem claim_empty_permission_list (store : RolesConfig)
    (roleName resource : Str) :
    canList store roleName [] resource = false ∧
    canExplainList store roleName [] resource = [] :=
  ⟨rfl, rfl⟩

/-- C10: every query operation — `can`, `canExplain`,
`hasWildcardPermission`, `getRoles`, `getName` — leaves the role store
unchanged for all inputs (its post-state equals its pre-state), so the
result of any query is unaffected by queries performed before it; only
the constructor and `updateRoles` produce a different store. -/
theorem claim_queries_leave_store_unchanged (s : RolesConfig)
    (roleName resource : Str) (perms : List Str) :
    (canS s roleName perms resource).2 = s ∧
    (canExplainS s roleName perms resource).2 = s ∧
    (hasWildcardPermissionS s roleName resource).2 = s ∧
    (getRolesS s).2 = s ∧
    (getNameS s roleName).2 = s :=
  ⟨rfl, rfl, rfl, rfl, rfl⟩

/-- C2 (the code contradicts the claim and its own comments): merging
`{admin: {permissions: {posts: ["write"]}}}` into a store where `admin`
has display name `"Administrator"` and resources
`posts: ["read"]`, `users: ["read"]` replaces the whole role entry: the
old-only resource `users` and the old display name are dropped, and the
old `posts` tokens are not unioned into the new list. -/
theorem updateRoles_merge_discards_old_config :
    updateRoles
      [(str "admin",
        { name := some (str "Administrator"),
          permissions :=
            [(str "posts", [str "read"]), (str "users", [str "read"])] })]
      [(str "admin", { permissions := [(str "posts", [str "write"])] })]
      true
      = [(str "admin", { permissions := [(str "posts", [str "write"])] })] := by
  decide

/-- C7 (amended): parsing splits on `|` first with the segment between
the first and second `|` becoming the result (text after a second `|` is
dropped), then splits the action/qualifier portion on `:` with the left
part the action and the segment between the first and second `:` the
qualifier (text after a second `:` is dropped); a token with neither
separator — including the empty string — yields only an action, and
malformed tokens are parsed by these same fixed rules rather than
rejected. -/
theorem claim_parse_split_rules (s : Str) :
    parsePermission s =
      { action := takeUntil ':' (takeUntil '|' s)
        ownership :=
          if ':' ∈ takeUntil '|' s then
            some (takeUntil ':' (dropThrough ':' (takeUntil '|' s)))
          else none
        comparisonResult :=
          if '|' ∈ s then some (takeUntil '|' (dropThrough '|' s))
          else none } ∧
    parsePermission [] = { action := [] } :=
  ⟨parsePermission_eq s, by decide⟩

/-- C7 counterexample: on `"a:b:c"` the code keeps only the segment
between the first and second `:` as the qualifier (`"b"`); the claim's
rule (everything to the right of the first `:`) would give `"b:c"`. -/
theorem parse_extra_colon_example :
    (parsePermission (str "a:b:c")).ownership = some (str "b") ∧
    (parsePermissionSpecWords (str "a:b:c")).ownership = some (str "b:c") ∧
    parsePermission (str "a:b:c") ≠ parsePermissionSpecWords (str "a:b:c") := by
  decide

/-- C6: a role granted the token `"update:own"` (qualifier present, no
result part) on a resource satisfies `can(role, "update:own", resource)`
unconditionally: the qualifier is satisfied by default. -/
theorem claim_default_true_qualifier (store : RolesConfig)
    (roleName resource : Str)
    (h : str "update:own" ∈ getRolePermissions store roleName resource) :
    can store roleName (str "update:own") resource = true := by
  have ht : strTruthy (parsePermission (str "update:own")).ownership = true :=
    by decide
  have hr : (parsePermission (str "update:own")).comparisonResult.isSome
      = false := by decide
  unfold can canList
  rw [List.any_cons, List.any_nil, Bool.or_false]
  simp only [checkSinglePermission, ht, hr]
  by_cases hw :
      WILDCARD_PERMISSION ∈ getRolePermissions store roleName resource
  · simp [hw]
  · simp only [hw, decide_False]
    by_cases hg : (parsePermission (str "update:own")).action ∈
        getRolePermissions store roleName resource
    · simp [hg]
    · have hany : (getRolePermissions store roleName resource).any
          (checkCandidate (parsePermission (str "update:own"))) = true :=
        List.any_eq_true.mpr ⟨str "update:own", h, by decide⟩
      simp [hg, hany]

/-- C6 witness: the theorem applied to a store where role `r` holds
exactly `["update:own"]` on `posts`. -/
theorem claim_default_true_qualifier_witness :
    can [(str "r", { permissions := [(str "posts", [str "update:own"])] })]
      (str "r") (str "update:own") (str "posts") = true :=
  claim_default_true_qualifier
    [(str "r", { permissions := [(str "posts", [str "update:own"])] })]
    (str "r") (str "posts") (by decide)

/-- C3 (amended): if a role's permission list for a resource contains
the bare action of the request and not the wildcard token, then `can`
grants every request token carrying that action together with a
non-empty qualifier, regardless of the qualifier's comparison result —
in particular `can(role, own(action, a, b), resource)` for `a ≠ b`. -/
theorem claim_general_grant_subsumes (store : RolesConfig)
    (roleName resource t : Str)
    (hq : strTruthy (parsePermission t).ownership = true)
    (ha : (parsePermission t).action ∈
      getRolePermissions store roleName resource)
    (hw : WILDCARD_PERMISSION ∉ getRolePermissions store roleName resource) :
    can store roleName t resource = true := by
  unfold can canList
  rw [List.any_cons, List.any_nil, Bool.or_false]
  simp only [checkSinglePermission, hq, hw, ha]
  simp

/-- C3 witness: role `r` holds bare `update` on `posts`; the request
`own("update", "a", "b")` with distinct ids is granted. -/
theorem claim_general_grant_subsumes_witness :
    can [(str "r", { permissions := [(str "posts", [str "update"])] })]
      (str "r") (own (str "update") (str "a") (str "b")) (str "posts")
      = true :=
  claim_general_grant_subsumes
    [(str "r", { permissions := [(str "posts", [str "update"])] })]
    (str "r") (str "posts") (own (str "update") (str "a") (str "b"))
    (by decide) (by decide) (by decide)

/-- C3 counterexample: the claim as stated fails when the permission
list also contains the wildcard token: with grants `["*", "update"]` the
wildcard branch wins and `can(role, own("update","a","b"), posts)`
evaluates the pre-computed `false` result and denies, although the bare
action `update` is present. -/
theorem general_grant_wildcard_example :
    (str "update") ∈ getRolePermissions
      [(str "r", { permissions := [(str "posts", [str "*", str "update"])] })]
      (str "r") (str "posts") ∧
    can [(str "r", { permissions := [(str "posts", [str "*", str "update"])] })]
      (str "r") (own (str "update") (str "a") (str "b")) (str "posts")
      = false := by
  decide

/-- C4 (amended): with the wildcard token among the grants, `can`
returns `true` for every request token without a qualifier; for a
request with a *non-empty* qualifier, `can` returns `true` iff the
result part is absent or equals `"true"` (so `false` exactly when a
result is present and differs from `"true"`, including `"false"`). -/
theorem claim_wildcard_semantics (store : RolesConfig)
    (roleName resource t : Str)
    (hw : WILDCARD_PERMISSION ∈ getRolePermissions store roleName resource) :
    ((parsePermission t).ownership = none →
      can store roleName t resource = true) ∧
    (strTruthy (parsePermission t).ownership = true →
      (can store roleName t resource = true ↔
        ((parsePermission t).comparisonResult = none ∨
         (parsePermission t).comparisonResult = some (str "true")))) := by
  constructor
  · intro hq
    unfold can canList
    rw [List.any_cons, List.any_nil, Bool.or_false]
    simp [checkSinglePermission, hw, hq, strTruthy]
  · intro hq
    unfold can canList
    rw [List.any_cons, List.any_nil, Bool.or_false]
    simp only [checkSinglePermission, hw, decide_True, if_true, hq,
      Bool.not_true, Bool.false_eq_true, if_false]
    cases hr : (parsePermission t).comparisonResult with
    | none => simp
    | some v => simp [decide_eq_true_eq]

/-- C4 witness: role holds `["*"]` on `posts`; an unqualified unknown
action is granted, and a qualified request is granted iff its result is
absent or `"true"`. -/
theorem claim_wildcard_semantics_witness :
    ((parsePermission (str "frobnicate")).ownership = none →
      can [(str "r", { permissions := [(str "posts", [str "*"])] })]
        (str "r") (str "frobnicate") (str "posts") = true) ∧
    (strTruthy (parsePermission (str "frobnicate")).ownership = true →
      (can [(str "r", { permissions := [(str "posts", [str "*"])] })]
        (str "r") (str "frobnicate") (str "posts") = true ↔
        ((parsePermission (str "frobnicate")).comparisonResult = none ∨
         (parsePermission (str "frobnicate")).comparisonResult
           = some (str "true")))) :=
  claim_wildcard_semantics
    [(str "r", { permissions := [(str "posts", [str "*"])] })]
    (str "r") (str "posts") (str "frobnicate") (by decide)

/-- C4 counterexample: the token `"a:|false"` parses with a qualifier
(the empty string) and result `"false"`; the claim says `can` must
return `false`, but the code treats the empty qualifier as falsy and
takes the unconditional wildcard branch, returning `true`. -/
theorem wildcard_empty_qualifier_example :
    (parsePermission (str "a:|false")).ownership = some [] ∧
    (parsePermission (str "a:|false")).comparisonResult
      = some (str "false") ∧
    can [(str "r", { permissions := [(str "posts", [str "*"])] })]
      (str "r") (str "a:|false") (str "posts") = true := by
  decide

/-- C5 (amended): for every action string not containing the `|`
separator, `own(action, x, y)` returns
`action + ":own|true"` exactly when `x = y` and `action + ":own|false"`
otherwise, and for a role holding exactly the token `action + ":own"` on
a resource, `can(role, own(action, x, y), resource)` equals `x = y`. -/
theorem claim_own_correct (action x y : Str) (store : RolesConfig)
    (roleName resource : Str)
    (hpipe : '|' ∉ action)
    (hperms : getRolePermissions store roleName resource
      = [action ++ str ":own"]) :
    own action x y = action ++ str ":own|" ++
      (if x = y then str "true" else str "false") ∧
    (can store roleName (own action x y) resource = true ↔ x = y) := by
  refine ⟨rfl, ?_⟩
  set G : Str := action ++ str ":own" with hG
  set b : Str := (if x = y then str "true" else str "false") with hb
  have hGpipe : '|' ∉ G := by
    intro hmem
    rcases List.mem_append.mp hmem with h | h
    · exact hpipe h
    · revert h
      decide
  have hbpipe : '|' ∉ b := by
    rw [hb]
    by_cases hxy : x = y <;> simp [hxy] <;> decide
  have hGcolon : ':' ∈ G := List.mem_append.mpr (Or.inr (by decide))
  have hown : own action x y = G ++ '|' :: b := by
    show action ++ str ":own|" ++ b = G ++ '|' :: b
    rw [hG]
    have h1 : str ":own|" = str ":own" ++ ['|'] := by decide
    rw [h1, List.append_assoc, List.append_assoc, List.singleton_append,
      ← List.append_assoc]
  have hsplit : jsSplit '|' (G ++ '|' :: b) = [G, b] := by
    rw [jsSplit_append_sep b hGpipe, jsSplit_of_not_mem hbpipe]
  have hmemp : '|' ∈ G ++ '|' :: b :=
    List.mem_append_right _ (List.mem_cons_self _ _)
  have hreq : parsePermission (own action x y) =
      { action := takeUntil ':' G, ownership := (jsSplit ':' G).get? 1,
        comparisonResult := some b } := by
    rw [hown]
    simp only [parsePermission, jsIncludes, hmemp, decide_True, if_true,
      hsplit]
    simp [hGcolon, jsSplit_headD, jsSplit_head_getD]
  have hgrant : parsePermission G =
      { action := takeUntil ':' G, ownership := (jsSplit ':' G).get? 1,
        comparisonResult := none } := by
    simp only [parsePermission, jsIncludes]
    simp [hGpipe, hGcolon, jsSplit_headD, jsSplit_head_getD]
  have hAne : takeUntil ':' G ≠ G := by
    intro h
    exact (h ▸ not_mem_takeUntil ':' G) hGcolon
  have hGW : G ≠ WILDCARD_PERMISSION := by
    intro h
    rw [h] at hGcolon
    exact absurd hGcolon (by decide)
  have hcand : checkCandidate
      { action := takeUntil ':' G, ownership := (jsSplit ':' G).get? 1,
        comparisonResult := some b } G = true := by
    simp only [checkCandidate, hgrant]
    simp only [if_neg hGW]
    cases hT : strTruthy ((jsSplit ':' G).get? 1) <;> simp [hT]
  have hww : WILDCARD_PERMISSION ∉ ([G] : List Str) := by
    simp [List.mem_singleton]
    exact Ne.symm hGW
  have hAG : takeUntil ':' G ∉ ([G] : List Str) := by
    simp [List.mem_singleton, hAne]
  unfold can canList
  rw [List.any_cons, List.any_nil, Bool.or_false]
  simp only [checkSinglePermission, hperms, hreq, List.any_cons,
    List.any_nil, Bool.or_false, hcand]
  simp only [hww, hAG, decide_False, Bool.and_false, Bool.false_eq_true,
    if_false, Bool.not_true, Option.isSome_some, if_true]
  by_cases hxy : x = y <;> simp [hb, hxy]
  decide

/-- C5 witness: role `user` holds exactly `update:own` on `posts`; the
helper grants for matching ids and denies for distinct ids. -/
theorem claim_own_correct_witness :
    (own (str "update") (str "1") (str "1") = (str "update") ++ str ":own|" ++
      (if str "1" = str "1" then str "true" else str "false") ∧
    (can [(str "user",
        { permissions := [(str "posts", [str "update:own"])] })]
      (str "user") (own (str "update") (str "1") (str "1")) (str "posts")
      = true ↔ str "1" = str "1")) ∧
    (own (str "update") (str "1") (str "2") = (str "update") ++ str ":own|" ++
      (if str "1" = str "2" then str "true" else str "false") ∧
    (can [(str "user",
        { permissions := [(str "posts", [str "update:own"])] })]
      (str "user") (own (str "update") (str "1") (str "2")) (str "posts")
      = true ↔ str "1" = str "2")) :=
  ⟨claim_own_correct (str "update") (str "1") (str "1")
      [(str "user", { permissions := [(str "posts", [str "update:own"])] })]
      (str "user") (str "posts") (by decide) (by decide),
   claim_own_correct (str "update") (str "1") (str "2")
      [(str "user", { permissions := [(str "posts", [str "update:own"])] })]
      (str "user") (str "posts") (by decide) (by decide)⟩

/-- C5 counterexample: with an action containing `|` the claim fails:
for `action = "a|b"` and equal ids the constructed token parses with
action `"a"` and result `"b:own"`, so `can` denies although `x = y`. -/
theorem own_pipe_action_example :
    own (str "a|b") (str "u") (str "u") = str "a|b:own|true" ∧
    can [(str "r", { permissions := [(str "posts", [str "a|b:own"])] })]
      (str "r") (own (str "a|b") (str "u") (str "u")) (str "posts")
      = false := by
  decide

/-! ## Agreement of `can` and `canExplain` (claim C1) -/

theorem strTruthy_eq_false_iff (o : Option Str) :
    strTruthy o = false ↔ o = none ∨ o = some [] := by
  cases o with
  | none => simp [strTruthy]
  | some s => cases s <;> simp [strTruthy]

theorem ne_of_strTruthy_mismatch {o₁ o₂ : Option Str}
    (h₁ : strTruthy o₁ = true) (h₂ : strTruthy o₂ = false) : o₁ ≠ o₂ := by
  intro h
  rw [h, h₂] at h₁
  exact Bool.false_ne_true h₁

/-- A well-formed grant whose qualifier is falsy is a plain token: it is
exactly its own action. -/
theorem wfGrant_falsy_plain {p : Str} (hwf : wfGrant p)
    (hpq : strTruthy (parsePermission p).ownership = false) :
    parsePermission p = { action := p } := by
  have h1 : (parsePermission p).ownership = none := by
    rcases (strTruthy_eq_false_iff _).mp hpq with h | h
    · exact h
    · exact absurd h hwf.1
  have h2 : (parsePermission p).comparisonResult = none := by
    rcases hwf.2 with h | h
    · simp [h] at hpq
    · exact h
  exact parsePermission_plain h1 h2

/-- On well-formed grants (and once the wildcard and the
generality-subsumption steps have not fired) the matching predicate of
`checkSinglePermission` coincides with the one of
`explainSinglePermission`. -/
theorem checkCandidate_eq_explainCandidate (parsed : ParsedPermission)
    (p : Str) (hwf : wfGrant p) (hnw : p ≠ WILDCARD_PERMISSION)
    (hgen : strTruthy parsed.ownership = true → parsed.action ≠ p) :
    checkCandidate parsed p = explainCandidate parsed p := by
  unfold checkCandidate explainCandidate
  rw [if_neg hnw]
  by_cases hact : (parsePermission p).action = parsed.action
  · cases hq : strTruthy parsed.ownership with
    | false =>
      cases hpq : strTruthy (parsePermission p).ownership with
      | false => simp [hact, hq, hpq]
      | true =>
        have hne : (parsePermission p).ownership ≠ parsed.ownership :=
          ne_of_strTruthy_mismatch hpq hq
        simp [hact, hq, hpq, hne]
    | true =>
      cases hpq : strTruthy (parsePermission p).ownership with
      | false =>
        -- a well-formed grant with falsy qualifier is the bare action,
        -- which the generality step would already have consumed
        have hplain := wfGrant_falsy_plain hwf hpq
        have : parsed.action = p := by
          rw [← hact, hplain]
        exact absurd this (hgen hq)
      | true =>
        by_cases ho : parsed.ownership = (parsePermission p).ownership
        · simp [hact, hq, hpq, ho]
        · simp [hact, hq, hpq, ho, Ne.symm ho]
  · simp [hact]

/-- On a well-formed request against well-formed grants, the boolean of
`checkSinglePermission` is the `granted` field of
`explainSinglePermission`. -/
theorem check_eq_explain_granted (store : RolesConfig)
    (roleName resource t : Str) (hreq : wfRequest t)
    (hgr : ∀ p ∈ getRolePermissions store roleName resource, wfGrant p) :
    checkSinglePermission store roleName t resource
      = (explainSinglePermission store roleName t resource).granted := by
  by_cases hrole : (lookup roleName store).isNone = true
  · -- absent role: both deny
    have h0 : lookup roleName store = none := by
      cases h : lookup roleName store with
      | none => rfl
      | some cfg => rw [h] at hrole; simp at hrole
    have hP : getRolePermissions store roleName resource = [] := by
      unfold getRolePermissions
      rw [h0]
    simp [checkSinglePermission, explainSinglePermission, hrole, hP]
  · simp only [explainSinglePermission, hrole, if_false]
    by_cases hPe : (getRolePermissions store roleName resource).isEmpty = true
    · -- no tokens for the resource: both deny
      have hP : getRolePermissions store roleName resource = [] :=
        List.isEmpty_iff.mp hPe
      simp [checkSinglePermission, hPe, hP]
    · simp only [hPe, if_false]
      by_cases hw : WILDCARD_PERMISSION ∈ getRolePermissions store roleName
          resource
      · -- wildcard branch: both run the same three-way test
        simp only [checkSinglePermission, hw, decide_True, if_true]
        cases hqt : strTruthy (parsePermission t).ownership with
        | false => simp [hqt]
        | true =>
          cases hrr : (parsePermission t).comparisonResult with
          | none => simp [hqt, hrr]
          | some v =>
            by_cases hv : some v = some (str "true") <;>
              simp [hqt, hrr, hv, apply_ite PermissionExplanation.granted]
      · simp only [checkSinglePermission, hw, decide_False, if_false]
        by_cases hgb : (strTruthy (parsePermission t).ownership
            && decide ((parsePermission t).action ∈
              getRolePermissions store roleName resource)) = true
        · -- generality subsumption: both grant
          simp [hgb]
        · simp only [hgb, if_false]
          have hgen : strTruthy (parsePermission t).ownership = true →
              (parsePermission t).action ∉
                getRolePermissions store roleName resource := by
            intro hq ha
            exact hgb (by simp [hq, ha])
          have hpt : ∀ p ∈ getRolePermissions store roleName resource,
              checkCandidate (parsePermission t) p
                = explainCandidate (parsePermission t) p := by
            intro p hp
            refine checkCandidate_eq_explainCandidate _ p (hgr p hp)
              (fun hpw => hw (hpw ▸ hp)) ?_
            intro hq heq
            exact hgen hq (heq ▸ hp)
          by_cases hmatch : ∃ p ∈ getRolePermissions store roleName resource,
              explainCandidate (parsePermission t) p = true
          · -- a candidate matches in both procedures
            obtain ⟨p, hp, he⟩ := hmatch
            have hany : (getRolePermissions store roleName resource).any
                (checkCandidate (parsePermission t)) = true :=
              List.any_eq_true.mpr ⟨p, hp, (hpt p hp).symm ▸ he⟩
            have hfil : ((getRolePermissions store roleName resource).filter
                (explainCandidate (parsePermission t))).isEmpty = false := by
              have hmem : p ∈ (getRolePermissions store roleName
                  resource).filter (explainCandidate (parsePermission t)) :=
                List.mem_filter.mpr ⟨hp, he⟩
              cases hfe : (getRolePermissions store roleName resource).filter
                  (explainCandidate (parsePermission t)) with
              | nil => rw [hfe] at hmem; cases hmem
              | cons a l => simp
            cases hqt : strTruthy (parsePermission t).ownership with
            | false =>
              -- well-formed request with falsy qualifier carries no result
              have hr : (parsePermission t).comparisonResult = none := by
                rcases hreq with h | h
                · simp [h] at hqt
                · exact h
              simp [hany, hfil, hqt, hr]
            | true =>
              cases hrr : (parsePermission t).comparisonResult with
              | none => simp [hany, hfil, hqt, hrr]
              | some v =>
                by_cases hv : some v = some (str "true") <;>
                  simp [hany, hfil, hqt, hrr, hv,
                    apply_ite PermissionExplanation.granted]
          · -- no candidate matches in either procedure: both deny
            have hnone : ∀ p ∈ getRolePermissions store roleName resource,
                explainCandidate (parsePermission t) p = false := by
              intro p hp
              cases hec : explainCandidate (parsePermission t) p with
              | false => rfl
              | true => exact absurd ⟨p, hp, hec⟩ hmatch
            have hany : (getRolePermissions store roleName resource).any
                (checkCandidate (parsePermission t)) = false := by
              rw [List.any_eq_false]
              intro p hp
              rw [hpt p hp]
              simp [hnone p hp]
            have hfil : ((getRolePermissions store roleName resource).filter
                (explainCandidate (parsePermission t))).isEmpty = true := by
              have : (getRolePermissions store roleName resource).filter
                  (explainCandidate (parsePermission t)) = [] :=
                List.filter_eq_nil_iff.mpr fun p hp => by simp [hnone p hp]
              simp [this]
            simp [hany, hfil, apply_ite PermissionExplanation.granted]

/-- C1 (amended): for well-formed tokens — a comparison result only
together with a non-empty qualifier, and no grant with an empty
qualifier — the boolean returned by `can` equals the `granted` field of
the explanation returned by `canExplain`: for a single token directly,
and for a list element-wise, with the list `can` equal to the
disjunction of the per-element `granted` values.  (Outside the
well-formed fragment the two procedures can disagree, see the
counterexample.) -/
theorem claim_can_explain_agree (store : RolesConfig)
    (roleName resource t : Str) (ts : List Str)
    (hreq : wfRequest t)
    (hreqs : ∀ u ∈ ts, wfRequest u)
    (hgr : ∀ p ∈ getRolePermissions store roleName resource, wfGrant p) :
    checkSinglePermission store roleName t resource
      = (canExplain store roleName t resource).granted ∧
    (canExplainList store roleName ts resource).map
        PermissionExplanation.granted
      = ts.map (fun u => checkSinglePermission store roleName u resource) ∧
    canList store roleName ts resource
      = ((canExplainList store roleName ts resource).map
          PermissionExplanation.granted).any id := by
  have hsingle : ∀ u : Str, wfRequest u →
      checkSinglePermission store roleName u resource
        = (explainSinglePermission store roleName u resource).granted :=
    fun u hu => check_eq_explain_granted store roleName resource u hu hgr
  have h2 : (canExplainList store roleName ts resource).map
      PermissionExplanation.granted
      = ts.map (fun u => checkSinglePermission store roleName u resource) := by
    unfold canExplainList
    rw [List.map_map]
    exact List.map_congr_left fun u hu => ((hsingle u (hreqs u hu))).symm
  refine ⟨hsingle t hreq, h2, ?_⟩
  have hmapany : ∀ l : List Str,
      (l.map (fun u => checkSinglePermission store roleName u resource)).any
        id
      = l.any fun u => checkSinglePermission store roleName u resource := by
    intro l
    induction l with
    | nil => rfl
    | cons a as ih => simp [ih]
  rw [h2, hmapany]
  rfl

/-- C1 witness: a concrete store (`user` holding `read` and
`update:own` on `posts`) and the token list
`[own("update","1","2"), "read"]`, all well-formed. -/
theorem claim_can_explain_agree_witness :
    checkSinglePermission
        [(str "user",
          { permissions :=
              [(str "posts", [str "read", str "update:own"])] })]
        (str "user") (own (str "update") (str "1") (str "2")) (str "posts")
      = (canExplain
          [(str "user",
            { permissions :=
                [(str "posts", [str "read", str "update:own"])] })]
          (str "user") (own (str "update") (str "1") (str "2"))
          (str "posts")).granted ∧
    (canExplainList
        [(str "user",
          { permissions :=
              [(str "posts", [str "read", str "update:own"])] })]
        (str "user") [own (str "update") (str "1") (str "2"), str "read"]
        (str "posts")).map PermissionExplanation.granted
      = [own (str "update") (str "1") (str "2"), str "read"].map
          (fun u => checkSinglePermission
            [(str "user",
              { permissions :=
                  [(str "posts", [str "read", str "update:own"])] })]
            (str "user") u (str "posts")) ∧
    canList
        [(str "user",
          { permissions :=
              [(str "posts", [str "read", str "update:own"])] })]
        (str "user") [own (str "update") (str "1") (str "2"), str "read"]
        (str "posts")
      = ((canExplainList
          [(str "user",
            { permissions :=
                [(str "posts", [str "read", str "update:own"])] })]
          (str "user") [own (str "update") (str "1") (str "2"), str "read"]
          (str "posts")).map PermissionExplanation.granted).any id :=
  claim_can_explain_agree
    [(str "user",
      { permissions := [(str "posts", [str "read", str "update:own"])] })]
    (str "user") (str "posts") (own (str "update") (str "1") (str "2"))
    [own (str "update") (str "1") (str "2"), str "read"]
    (by decide) (by decide) (by decide)

/-- C1 counterexample: the claim as stated (agreement for *every* token)
fails on the malformed token `"update|false"` against a role holding the
bare grant `update`: `can` evaluates the orphaned result part and
denies, while `canExplain` reports `granted = true`
(`PERMISSION_GRANTED`). -/
theorem can_explain_disagree_example :
    can [(str "r", { permissions := [(str "posts", [str "update"])] })]
      (str "r") (str "update|false") (str "posts") = false ∧
    (canExplain [(str "r",
        { permissions := [(str "posts", [str "update"])] })]
      (str "r") (str "update|false") (str "posts")).granted = true := by
  decide

/-! ## Inheritance traversal (claim C8) -/

theorem unionInto_nodup (toks : List Str) :
    ∀ acc : List Str, acc.Nodup → (unionInto acc toks).Nodup := by
  induction toks with
  | nil => exact fun acc h => h
  | cons t ts ih =>
    intro acc hacc
    show (List.foldl _ (if t ∈ acc then acc else acc ++ [t]) ts).Nodup
    by_cases hmem : t ∈ acc
    · rw [if_pos hmem]
      exact ih acc hacc
    · rw [if_neg hmem]
      refine ih _ ?_
      refine List.nodup_append.mpr ⟨hacc, List.nodup_singleton t, ?_⟩
      intro a ha hat
      rw [List.mem_singleton] at hat
      exact hmem (hat ▸ ha)

theorem resolveStep_nil (store : IRolesConfig) (resource : Str)
    (fuel : Nat) (visited acc : List Str) :
    resolveStep store resource fuel [] visited acc = (acc, visited) := by
  cases fuel <;> rfl

/-- The traversal keeps both its accumulator and its seen list free of
duplicates: a name is added to the seen list only when absent, a token
only when not yet collected. -/
theorem resolveStep_nodup (store : IRolesConfig) (resource : Str) :
    ∀ (fuel : Nat) (queue visited acc : List Str), visited.Nodup →
      acc.Nodup →
      (resolveStep store resource fuel queue visited acc).1.Nodup ∧
      (resolveStep store resource fuel queue visited acc).2.Nodup := by
  intro fuel
  induction fuel with
  | zero =>
    intro queue visited acc hv ha
    cases queue <;> exact ⟨ha, hv⟩
  | succ n ih =>
    intro queue visited acc hv ha
    cases queue with
    | nil => exact ⟨ha, hv⟩
    | cons r q =>
      show ((if r ∈ visited then _ else _ : List Str × List Str)).1.Nodup ∧ _
      by_cases hr : r ∈ visited
      · simp only [resolveStep, if_pos hr]
        exact ih q visited acc hv ha
      · have hv' : (visited ++ [r]).Nodup := by
          refine List.nodup_append.mpr ⟨hv, List.nodup_singleton r, ?_⟩
          intro a hav har
          rw [List.mem_singleton] at har
          exact hr (har ▸ hav)
        simp only [resolveStep, if_neg hr]
        cases hlook : lookup r store with
        | none => exact ih q (visited ++ [r]) acc hv' ha
        | some cfg =>
          exact ih (q ++ cfg.inherits) (visited ++ [r])
            (unionInto acc ((lookup resource cfg.permissions).getD []))
            hv' (unionInto_nodup _ acc ha)

theorem seenWeight_mono (store : IRolesConfig) {v v' : List Str}
    (h : ∀ x, x ∈ v → x ∈ v') :
    seenWeight store v' ≤ seenWeight store v := by
  induction store with
  | nil => exact Nat.le_refl _
  | cons e rest ih =>
    unfold seenWeight at ih ⊢
    rw [List.filter_cons, List.filter_cons]
    by_cases hk : e.1 ∈ v'
    · by_cases hkv : e.1 ∈ v
      · simpa [hk, hkv] using ih
      · simp only [hk, hkv, not_true_eq_false, not_false_eq_true,
          decide_True, decide_False, if_true, if_false, List.map_cons,
          List.sum_cons]
        exact le_trans ih (Nat.le_add_left _ _)
    · have hkv : e.1 ∉ v := fun hm => hk (h _ hm)
      simp only [hk, hkv, not_false_eq_true, decide_True, if_true,
        List.map_cons, List.sum_cons]
      exact Nat.add_le_add_left ih _

/-- Visiting a present, unvisited role pays for itself and for the
parents it enqueues: the unvisited weight drops by at least
`1 + cfg.inherits.length`. -/
theorem seenWeight_lookup_some (store : IRolesConfig) {r : Str}
    {cfg : IRoleConfig} {v : List Str} (hr : r ∉ v)
    (hlook : lookup r store = some cfg) :
    seenWeight store (v ++ [r]) + (1 + cfg.inherits.length)
      ≤ seenWeight store v := by
  induction store with
  | nil => cases hlook
  | cons e rest ih =>
    obtain ⟨k, c⟩ := e
    unfold seenWeight at ih ⊢
    rw [List.filter_cons, List.filter_cons]
    by_cases hk : k = r
    · have hcfg : c = cfg := by
        unfold lookup at hlook
        rw [if_pos hk] at hlook
        exact Option.some_inj.mp hlook
      subst hk
      subst hcfg
      have hd1 : (decide (k ∉ v ++ [k]) : Bool) = false := by simp
      have hd2 : (decide (k ∉ v) : Bool) = true := by simp [hr]
      rw [hd1, hd2]
      simp only [if_false, if_true, Bool.false_eq_true, List.map_cons,
        List.sum_cons]
      have hmono : seenWeight rest (v ++ [k]) ≤ seenWeight rest v :=
        seenWeight_mono rest fun x hx => List.mem_append_left _ hx
      unfold seenWeight at hmono
      omega
    · have hlook' : lookup r rest = some cfg := by
        unfold lookup at hlook
        rw [if_neg hk] at hlook
        exact hlook
      have hmemiff : (k ∈ v ++ [r]) ↔ k ∈ v := by
        simp [List.mem_append, hk]
      have hih := ih hlook'
      by_cases hkv : k ∈ v
      · have hd1 : (decide (k ∉ v ++ [r]) : Bool) = false := by
          simp [hmemiff, hkv]
        have hd2 : (decide (k ∉ v) : Bool) = false := by simp [hkv]
        rw [hd1, hd2]
        simpa using hih
      · have hd1 : (decide (k ∉ v ++ [r]) : Bool) = true := by
          simp [hmemiff, hkv]
        have hd2 : (decide (k ∉ v) : Bool) = true := by simp [hkv]
        rw [hd1, hd2]
        simp only [if_true, List.map_cons, List.sum_cons]
        omega

/-- Any two fuels at least `phi` give the same traversal result: the
unfuelled worklist loop terminates within `phi` iterations. -/
theorem resolveStep_stable (store : IRolesConfig) (resource : Str) :
    ∀ (n f g : Nat) (queue visited acc : List Str),
      phi store queue visited ≤ n → phi store queue visited ≤ f →
      phi store queue visited ≤ g →
      resolveStep store resource f queue visited acc
        = resolveStep store resource g queue visited acc := by
  intro n
  induction n with
  | zero =>
    intro f g queue visited acc hn _ _
    cases queue with
    | nil => rw [resolveStep_nil, resolveStep_nil]
    | cons r q =>
      exfalso
      unfold phi at hn
      simp [List.length_cons] at hn
  | succ n ih =>
    intro f g queue visited acc hn hf hg
    cases queue with
    | nil => rw [resolveStep_nil, resolveStep_nil]
    | cons r q =>
      have hphi1 : 1 ≤ phi store (r :: q) visited := by
        unfold phi
        simp [List.length_cons]
        omega
      obtain ⟨f', rfl⟩ : ∃ f', f = f' + 1 := ⟨f - 1, by omega⟩
      obtain ⟨g', rfl⟩ : ∃ g', g = g' + 1 := ⟨g - 1, by omega⟩
      by_cases hr : r ∈ visited
      · simp only [resolveStep, if_pos hr]
        have hlt : phi store q visited + 1 = phi store (r :: q) visited := by
          unfold phi
          simp [List.length_cons]
          omega
        exact ih f' g' q visited acc (by omega) (by omega) (by omega)
      · simp only [resolveStep, if_neg hr]
        cases hlook : lookup r store with
        | none =>
          have hmono : seenWeight store (visited ++ [r])
              ≤ seenWeight store visited :=
            seenWeight_mono store fun x hx => List.mem_append_left _ hx
          have hlt : phi store q (visited ++ [r]) + 1
              ≤ phi store (r :: q) visited := by
            unfold phi
            simp only [List.length_cons]
            omega
          exact ih f' g' q (visited ++ [r]) acc (by omega) (by omega)
            (by omega)
        | some cfg =>
          have hB := seenWeight_lookup_some store hr hlook
          have hlt : phi store (q ++ cfg.inherits) (visited ++ [r]) + 2
              ≤ phi store (r :: q) visited := by
            unfold phi
            simp only [List.length_append, List.length_cons]
            omega
          exact ih f' g' (q ++ cfg.inherits) (visited ++ [r])
            (unionInto acc ((lookup resource cfg.permissions).getD []))
            (by omega) (by omega) (by omega)

/-- C8 (spec-modelled): the seen-set-guarded resolution of a role's full
permission set terminates — any fuel beyond the `phi` bound leaves the
result unchanged, so the abstract worklist loop exits within `phi`
iterations — it visits each role name at most once (the visit order has
no duplicates), and the resulting token list has no duplicates, also for
cyclic and diamond-shaped multi-parent inheritance graphs. -/
theorem claim_inheritance_traversal (store : IRolesConfig)
    (roleName resource : Str) :
    (getAllPermissions store roleName resource).Nodup ∧
    (visitOrder store roleName resource).Nodup ∧
    ∀ k : Nat,
      resolveStep store resource (phi store [roleName] [] + k)
          [roleName] [] []
        = resolveStep store resource (phi store [roleName] [])
            [roleName] [] [] := by
  refine ⟨(resolveStep_nodup store resource _ _ _ _ List.nodup_nil
      List.nodup_nil).1,
    (resolveStep_nodup store resource _ _ _ _ List.nodup_nil
      List.nodup_nil).2, ?_⟩
  intro k
  exact resolveStep_stable store resource (phi store [roleName] [] + k)
    (phi store [roleName] [] + k) (phi store [roleName] []) [roleName] [] []
    (by omega) (by omega) (by omega)

end Gatesmith
